import Mathlib

/-!
Shallow embedding of `src/data_cleaning.py`, a six-stage pandas data-cleaning
pipeline (clean_column_names, clean_categories, clean_dates,
handle_missing_values, remove_invalid_rows, drop_duplicates), together with
proofs of the specification's claims about it.

Modelling choices:
* Python strings are modelled as `List Char` (ASCII-level: `str.lower`,
  `str.title`, `str.strip` are modelled by their behaviour on ASCII data,
  which is what the cleaning code relies on).
* A pandas cell is a `Value`: a string, a (rational) number, a parsed
  datetime (an integer timestamp), or the missing marker `na`
  (NaN / NaT — `dropna` treats both the same way).
* A DataFrame is a `Table`: an ordered list of column names plus a list of
  rows (each row a list of cell values, positionally aligned with the
  column names).
* The external library parsers `pd.to_datetime(..., errors="coerce")` and
  `pd.to_numeric(..., errors="coerce")` are parameterized by the string
  parsers they wrap (`String -> Option` timestamp / rational); everything
  the cleaning code itself does around them is modelled concretely.
* A raised Python exception (`KeyError` on a missing required column,
  `TypeError` on comparing non-numeric cells with `0`) is modelled by
  `Option.none` in stages that can fail.
-/

namespace DataCleaning

/-- Python strings, modelled as lists of characters. -/
abbrev Str := List Char

/-- A cell value of the table: a string, a number, a parsed datetime
(integer timestamp), or the missing marker (NaN / NaT). -/
inductive Value : Type where
  | str (s : Str)
  | num (q : Rat)
  | date (d : Int)
  | na
deriving DecidableEq

/-- A pandas DataFrame: ordered column names plus rows of cell values,
row entries positionally aligned with the column names. -/
structure Table : Type where
  cols : List Str
  rows : List (List Value)
deriving DecidableEq

/- Column-name and keyword constants used by the cleaning code. -/

def colProdname : Str := "prodname".toList
def colCategory : Str := "category".toList
def colPrice : Str := "price".toList
def colQty : Str := "qty".toList
def colDateSold : Str := "date_sold".toList
def officeS : Str := "office".toList
def electronicS : Str := "electronic".toList
def electronicsS : Str := "electronics".toList
def kitchenS : Str := "kitchen".toList
def fitnessS : Str := "fitness".toList
/-- Token produced by pandas `astype(str)` on a missing (NaN) value. -/
def nanToken : Str := "nan".toList

/- Character-level string operations (Python `str` methods on ASCII data). -/

/-- Python `str.strip()` / `.str.strip()`: drop leading characters
satisfying `p` (used with whitespace or with the quote character). -/
def lstrip (p : Char → Bool) (s : Str) : Str := s.dropWhile p

/-- Drop trailing characters satisfying `p`. -/
def rstrip (p : Char → Bool) (s : Str) : Str := (s.reverse.dropWhile p).reverse

/-- Strip characters satisfying `p` from both ends. -/
def strip (p : Char → Bool) (s : Str) : Str := rstrip p (lstrip p s)

/-- Python `str.strip()` with no argument: strip whitespace from both ends. -/
def stripWs (s : Str) : Str := strip Char.isWhitespace s

/-- Pandas `.str.strip('"')`: strip double-quote characters from both ends. -/
def stripQuote (s : Str) : Str := strip (fun c => c == '"') s

/-- Python `str.lower()` on ASCII data: lowercase each character. -/
def lowerStr (s : Str) : Str := s.map Char.toLower

/-- Replace a space character by an underscore, other characters unchanged. -/
def spaceToUnderscore (c : Char) : Char := if c == ' ' then '_' else c

/-- Pandas `.str.replace(" ", "_")`: replace every space by an underscore
(single-character pattern, so a character-wise map). -/
def replaceSpace (s : Str) : Str := s.map spaceToUnderscore

/-- Pandas `.str.replace(r"\s+", " ", regex=True)`: collapse every maximal
run of whitespace characters into a single space. -/
def collapseWs : Str → Str
  | [] => []
  | c :: rest =>
    let r := collapseWs rest
    if c.isWhitespace then (if r.head? == some ' ' then r else ' ' :: r)
    else c :: r

/-- Helper for Python `str.title()`: the flag records whether the previous
character was alphabetic (cased). -/
def titleGo (prevAlpha : Bool) : Str → Str
  | [] => []
  | c :: rest =>
    if c.isAlpha then
      (if prevAlpha then c.toLower else c.toUpper) :: titleGo true rest
    else c :: titleGo false rest

/-- Python `str.title()` on ASCII data: uppercase each alphabetic character
that follows a non-alphabetic one (or starts the string), lowercase the
other alphabetic characters. -/
def title (s : Str) : Str := titleGo false s

/-- Boolean test that `needle` is a prefix of `hay`. -/
def isPrefixB : Str → Str → Bool
  | [], _ => true
  | _ :: _, [] => false
  | a :: as, b :: bs => a == b && isPrefixB as bs

/-- Python substring containment `needle in hay`. -/
def containsSub (needle : Str) : Str → Bool
  | [] => needle.isEmpty
  | c :: rest => isPrefixB needle (c :: rest) || containsSub needle rest

/-- Pandas `astype(str)`: render a cell value as text. A missing value
renders as the literal token `nan`; the exact rendering of numeric and
datetime cells is immaterial to the pipeline (those columns are never
converted to text by the cleaning code). -/
def pyStr : Value → Str
  | .str s => s
  | .na => nanToken
  | .num q => (toString q).toList
  | .date d => (toString d).toList

/- Table plumbing: column lookup and per-column mapping. -/

/-- Index of the first element satisfying `p`. -/
def findIdxO (p : Str → Bool) : List Str → Option Nat
  | [] => none
  | a :: l => if p a then some 0 else (findIdxO p l).map (· + 1)

/-- Apply `f` to the entry at index `i`, leaving other entries unchanged. -/
def modifyAt (f : Value → Value) : Nat → List Value → List Value
  | _, [] => []
  | 0, v :: vs => f v :: vs
  | i + 1, v :: vs => v :: modifyAt f i vs

/-- The cell of row `r` in column `c` (w.r.t. column-name list `cols`). -/
def getCell (cols : List Str) (r : List Value) (c : Str) : Option Value :=
  match findIdxO (fun n => n == c) cols with
  | some i => r[i]?
  | none => none

/-- Apply `f` to the cell in column `c` of a single row. -/
def mapColRow (cols : List Str) (c : Str) (f : Value → Value) (r : List Value) :
    List Value :=
  match findIdxO (fun n => n == c) cols with
  | some i => modifyAt f i r
  | none => r

/-- Pandas column assignment `df[c] = df[c].map f`: apply `f` to column `c`
of every row. Column names are unchanged. -/
def mapCol (t : Table) (c : Str) (f : Value → Value) : Table :=
  { t with rows := t.rows.map (mapColRow t.cols c f) }

/-- True when the cell of `r` in column `c` is present and not the missing
marker. -/
def notNaCell (cols : List Str) (c : Str) (r : List Value) : Bool :=
  match getCell cols r c with
  | some v => !(v == Value.na)
  | none => true

/-- Pandas `df.dropna(subset=cs)`: remove every row having the missing
marker in one of the columns `cs`. -/
def dropna (t : Table) (cs : List Str) : Table :=
  { t with rows := t.rows.filter (fun r => cs.all (fun c => notNaCell t.cols c r)) }

/- The six pipeline stages, translated from `src/data_cleaning.py`. -/

/-- One column name under `clean_column_names`: strip surrounding
whitespace, lowercase, replace spaces by underscores. -/
def clean_name (s : Str) : Str := replaceSpace (lowerStr (stripWs s))

/-- The per-character composite applied by `clean_name` after stripping. -/
def cleanChar (c : Char) : Char := spaceToUnderscore (Char.toLower c)

/-- Stage 1, `clean_column_names`: standardize every column name
(strip, lowercase, spaces to underscores); the data is unchanged. -/
def clean_column_names (t : Table) : Table :=
  { t with cols := t.cols.map clean_name }

/-- The cleaning applied to a category value before matching, from
`clean_categories`: `astype(str)`, `.str.strip()`, `.str.strip('"')`,
collapse whitespace runs, lowercase. -/
def cleanCat (s : Str) : Str := lowerStr (collapseWs (stripQuote (stripWs s)))

/-- The inner `normalize_category` function: substring-based
canonicalization, first match wins. -/
def normalize_category (c : Str) : Str :=
  if containsSub officeS c then officeS
  else if containsSub electronicS c then electronicsS
  else if containsSub kitchenS c then kitchenS
  else if containsSub fitnessS c then fitnessS
  else c

/-- The whole per-cell transformation of `clean_categories`: render as
text, clean, canonicalize. -/
def categoryMapValue (v : Value) : Value :=
  .str (normalize_category (cleanCat (pyStr v)))

/-- Stage 2, `clean_categories`: if a `category` column exists, clean each
value and canonicalize it; otherwise the table passes through unchanged. -/
def clean_categories (t : Table) : Table :=
  if colCategory ∈ t.cols then mapCol t colCategory categoryMapValue
  else t

/-- Library call `pd.to_datetime(·, errors="coerce")`, parameterized by the
permissive string-to-timestamp parser `P`: a string that parses becomes a
datetime, an unparseable string and a missing value become the missing
marker (NaT), a numeric value is interpreted as an epoch offset, a
datetime stays itself. -/
def to_datetime (P : Str → Option Int) : Value → Value
  | .str s => match P s with
    | some d => .date d
    | none => .na
  | .na => .na
  | .num q => .date q.floor
  | .date d => .date d

/-- Stage 3, `clean_dates`: if a `date_sold` column exists, convert it with
`pd.to_datetime(errors="coerce")` and drop the rows whose date became the
missing marker; otherwise pass through unchanged. -/
def clean_dates (P : Str → Option Int) (t : Table) : Table :=
  if colDateSold ∈ t.cols then
    dropna (mapCol t colDateSold (to_datetime P)) [colDateSold]
  else t

/-- The product-name cleaning from `handle_missing_values`: `astype(str)`,
strip, collapse internal whitespace runs, `str.title()`. -/
def clean_prodname (s : Str) : Str := title (collapseWs (stripWs s))

/-- The whole per-cell transformation applied to `prodname`: render as
text, then clean. -/
def prodnameMapValue (v : Value) : Value := .str (clean_prodname (pyStr v))

/-- The first half of `handle_missing_values`: if a `prodname` column
exists, normalize its text; otherwise leave the table unchanged. -/
def clean_prodname_col (t : Table) : Table :=
  if colProdname ∈ t.cols then mapCol t colProdname prodnameMapValue
  else t

/-- Library call `pd.to_numeric(·, errors="coerce")`, parameterized by the
string-to-number parser `N`: a string that parses becomes a number, an
unparseable string and a missing value become the missing marker (NaN), a
number stays itself, a datetime coerces to its integer timestamp. -/
def to_numeric (N : Str → Option Rat) : Value → Value
  | .str s => match N s with
    | some q => .num q
    | none => .na
  | .na => .na
  | .num q => .num q
  | .date d => .num d

/-- The second half of `handle_missing_values`: coerce `price` and `qty`
to numeric and drop rows where either is missing. Accessing an absent
`price` or `qty` column raises (`none`); `price` is accessed first. -/
def coerce_and_drop (N : Str → Option Rat) (t : Table) : Option Table :=
  if colPrice ∈ t.cols then
    if colQty ∈ t.cols then
      some (dropna (mapCol (mapCol t colPrice (to_numeric N)) colQty (to_numeric N))
        [colPrice, colQty])
    else none
  else none

/-- Stage 4, `handle_missing_values`: normalize `prodname` text (if the
column exists), then coerce `price`/`qty` to numeric and drop rows where
either is missing; fails when `price` or `qty` is absent. -/
def handle_missing_values (N : Str → Option Rat) (t : Table) : Option Table :=
  coerce_and_drop N (clean_prodname_col t)

/-- A pandas comparison `v > 0` on one cell: defined (with pandas
semantics `NaN > 0 = False`) on numeric and missing cells, a `TypeError`
(`none`) on string and datetime cells. -/
def gtZero : Value → Option Bool
  | .num q => some (decide (0 < q))
  | .na => some false
  | .str _ => none
  | .date _ => none

/-- The row filter of `remove_invalid_rows`: `price > 0 AND qty > 0` for
one row; `none` models a raised `KeyError`/`TypeError`. -/
def rowValid (cols : List Str) (r : List Value) : Option Bool := do
  let p ← getCell cols r colPrice
  let q ← getCell cols r colQty
  let bp ← gtZero p
  let bq ← gtZero q
  pure (bp && bq)

/-- Stage 5, `remove_invalid_rows`: keep only rows with `price > 0` and
`qty > 0`. Raises (`none`) when `price` or `qty` is absent or when some
`price`/`qty` cell is not comparable with `0`. -/
def remove_invalid_rows (t : Table) : Option Table :=
  if colPrice ∈ t.cols then
    if colQty ∈ t.cols then
      if t.rows.all (fun r => (rowValid t.cols r).isSome) then
        some { t with rows := t.rows.filter (fun r => (rowValid t.cols r).getD false) }
      else none
    else none
  else none

/-- Keep the first occurrence of each row, dropping later exact
duplicates; `seen` accumulates the rows already emitted. -/
def dedupGo (seen : List (List Value)) : List (List Value) → List (List Value)
  | [] => []
  | r :: rs => if r ∈ seen then dedupGo seen rs else r :: dedupGo (r :: seen) rs

/-- Stage 6, `df.drop_duplicates()`: remove rows that duplicate an earlier
row in every column value. -/
def drop_duplicates (t : Table) : Table :=
  { t with rows := dedupGo [] t.rows }

/-- Specification reading of the Deduplicator contract, used to compare
with `dedupGo`: walking the rows in order with `pre` holding the rows
already walked, a row is kept exactly when it is not identical to an
earlier row. -/
def keepFirstGo (pre : List (List Value)) : List (List Value) → List (List Value)
  | [] => []
  | r :: rs =>
    if r ∈ pre then keepFirstGo (pre ++ [r]) rs
    else r :: keepFirstGo (pre ++ [r]) rs

/-- Specification reading of the Deduplicator on a whole row list. -/
def keepFirstSpec (l : List (List Value)) : List (List Value) := keepFirstGo [] l

/-- A table is rectangular: every row has one entry per column. Pandas
DataFrames always satisfy this. -/
def rect (t : Table) : Prop := ∀ r ∈ t.rows, r.length = t.cols.length

/-- The complete per-row transformation of `handle_missing_values`:
normalize the prodname cell when a `prodname` column exists, then coerce
the price and qty cells to numeric. -/
def hmvRowTransform (N : Str → Option Rat) (cols : List Str)
    (r : List Value) : List Value :=
  mapColRow cols colQty (to_numeric N)
    (mapColRow cols colPrice (to_numeric N)
      (if colProdname ∈ cols then mapColRow cols colProdname prodnameMapValue r
       else r))

/-- True when the cell of `r` in column `c` is a number or the missing
marker (the situations in which pandas can compare the cell with `0`). -/
def numOrNa (cols : List Str) (c : Str) (r : List Value) : Bool :=
  match getCell cols r c with
  | some (.num _) => true
  | some .na => true
  | _ => false

/- Concrete sample data used to instantiate proved theorems. -/

/-- Sample raw category cell, spec Scenario 2. -/
def exCategoryRaw : Str := " OFFICE  Furniture ".toList

/-- Sample raw product-name cell, spec Scenario 1. -/
def exProdRaw : Str := " standing   desk ".toList

/-- Sample cleaned product name, spec Scenario 1. -/
def exProdClean : Str := "Standing Desk".toList

/-- Sample date text. -/
def exDateRaw : Str := "2024-01-05".toList

/-- Sample unparseable date text. -/
def exDateBad : Str := "nope".toList

/-- Sample numeral 150. -/
def ex150S : Str := "150".toList

/-- Sample numeral 2. -/
def ex2S : Str := "2".toList

/-- Sample raw column name with stray spaces. -/
def exColProdRaw : Str := " ProdName ".toList

/-- Sample raw column name, uppercase with stray spaces. -/
def exColCatRaw : Str := " CATEGORY ".toList

/-- Sample raw column name with mixed case. -/
def exColQtyRaw : Str := "Qty".toList

/-- Sample date parser: parses only the sample date. -/
def exDateParser : Str → Option Int :=
  fun s => if s = exDateRaw then some 19727 else none

/-- Sample numeric parser: parses the two numerals used in the samples. -/
def exNumParser : Str → Option Rat :=
  fun s =>
    if s = ex150S then some 150
    else if s = ex2S then some 2
    else none

/-- Sample raw table, following spec Scenario 1 (one fully valid row)
plus one row with an unparseable date. -/
def exTable : Table :=
  { cols := [exColProdRaw, exColCatRaw, colPrice, exColQtyRaw, colDateSold],
    rows := [[.str exProdRaw, .str exCategoryRaw, .str ex150S,
        .str ex2S, .str exDateRaw],
      [.str exProdRaw, .str exCategoryRaw, .str ex150S,
        .str ex2S, .str exDateBad]] }

/-- The row that the pipeline produces from the first sample row. -/
def exRow0 : List Value :=
  [.str exProdClean, .str officeS, .num 150, .num 2, .date 19727]

/-- The table that the pipeline produces from `exTable`. -/
def exPipelineOut : Table :=
  { cols := [colProdname, colCategory, colPrice, colQty, colDateSold],
    rows := [exRow0] }

/-- Sample input for the Missing-Value Handler alone. -/
def exProdTable : Table :=
  { cols := [colProdname, colPrice, colQty],
    rows := [[.str exProdRaw, .num 150, .num 2]] }

/-- The row the Missing-Value Handler produces from `exProdTable`. -/
def exProdOutRow : List Value := [.str exProdClean, .num 150, .num 2]

/-- The table the Missing-Value Handler produces from `exProdTable`. -/
def exProdOut : Table :=
  { cols := [colProdname, colPrice, colQty], rows := [exProdOutRow] }

/-- Sample numeric table with one missing qty, for the Row Validator. -/
def exMixTable : Table :=
  { cols := [colPrice, colQty],
    rows := [[.num 150, .na], [.num 150, .num 2]] }

/-- The empty table. -/
def exEmpty : Table := { cols := [], rows := [] }

/-- The full pipeline in the order of `__main__`: column names,
categories, dates, missing values, invalid rows, duplicates. -/
def pipeline (P : Str → Option Int) (N : Str → Option Rat) (t : Table) :
    Option Table := do
  let t1 := clean_column_names t
  let t2 := clean_categories t1
  let t3 := clean_dates P t2
  let t4 ← handle_missing_values N t3
  let t5 ← remove_invalid_rows t4
  pure (drop_duplicates t5)

/- Character-level lemmas about the modelled Python string operations. -/

/-- Unfolding of `Char.toLower` in `if`-form. -/
theorem toLower_eq (c : Char) :
    c.toLower = if c.toNat ≥ 65 ∧ c.toNat ≤ 90 then Char.ofNat (c.toNat + 32) else c := rfl

/-- Lowercasing the lowercase image of an uppercase letter is the identity. -/
theorem toLower_ofNat_upper (n : Nat) (h1 : 65 ≤ n) (h2 : n ≤ 90) :
    (Char.ofNat (n + 32)).toLower = Char.ofNat (n + 32) := by
  interval_cases n <;> decide

/-- The lowercase image of an uppercase letter is not whitespace. -/
theorem ofNat_upper_not_ws (n : Nat) (h1 : 65 ≤ n) (h2 : n ≤ 90) :
    (Char.ofNat (n + 32)).isWhitespace = false := by
  interval_cases n <;> decide

/-- Lowercasing a character is idempotent. -/
theorem toLower_idem (c : Char) : c.toLower.toLower = c.toLower := by
  rw [toLower_eq c]
  by_cases h : c.toNat ≥ 65 ∧ c.toNat ≤ 90
  · rw [if_pos h]
    exact toLower_ofNat_upper c.toNat h.1 h.2
  · rw [if_neg h, toLower_eq c, if_neg h]

/-- Lowercasing preserves non-whitespace characters. -/
theorem toLower_not_ws (c : Char) (h : c.isWhitespace = false) :
    (Char.toLower c).isWhitespace = false := by
  rw [toLower_eq c]
  by_cases hc : c.toNat ≥ 65 ∧ c.toNat ≤ 90
  · rw [if_pos hc]
    exact ofNat_upper_not_ws c.toNat hc.1 hc.2
  · rwa [if_neg hc]

/-- The space-to-underscore replacement preserves non-whitespace characters. -/
theorem spaceToUnderscore_not_ws (c : Char) (h : c.isWhitespace = false) :
    (spaceToUnderscore c).isWhitespace = false := by
  unfold spaceToUnderscore
  by_cases hc : c == ' '
  · rw [if_pos hc]; decide
  · rwa [if_neg hc]

/-- The per-character composite of `clean_name` is idempotent. -/
theorem cleanChar_idem (c : Char) : cleanChar (cleanChar c) = cleanChar c := by
  unfold cleanChar
  by_cases hc : Char.toLower c = ' '
  · rw [hc]; decide
  · have h1 : spaceToUnderscore (Char.toLower c) = Char.toLower c := by
      unfold spaceToUnderscore
      rw [if_neg (by simpa using hc)]
    rw [h1, toLower_idem, h1]

/-- The per-character composite of `clean_name` preserves non-whitespace. -/
theorem cleanChar_not_ws (c : Char) (h : c.isWhitespace = false) :
    (cleanChar c).isWhitespace = false :=
  spaceToUnderscore_not_ws _ (toLower_not_ws _ h)

/- List-level lemmas about stripping and `clean_name`. -/

/-- Dropping a satisfied prefix is the identity when the head does not
satisfy the predicate. -/
theorem dropWhile_eq_self (p : Char → Bool) (l : Str)
    (h : ∀ c, l.head? = some c → p c = false) : l.dropWhile p = l := by
  cases l with
  | nil => rfl
  | cons a t =>
    rw [List.dropWhile_cons, if_neg]
    simp [h a rfl]

/-- The head of a dropWhile result does not satisfy the predicate. -/
theorem head_dropWhile_false (p : Char → Bool) (l : Str) (c : Char)
    (h : (l.dropWhile p).head? = some c) : p c = false := by
  have := List.head?_dropWhile_not p l
  rw [h] at this
  exact this

/-- Stripping is the identity on a string whose two ends are not whitespace. -/
theorem stripWs_eq_self (l : Str)
    (h1 : ∀ c, l.head? = some c → c.isWhitespace = false)
    (h2 : ∀ c, l.reverse.head? = some c → c.isWhitespace = false) :
    stripWs l = l := by
  unfold stripWs strip lstrip rstrip
  rw [dropWhile_eq_self _ _ h1, dropWhile_eq_self _ _ h2, List.reverse_reverse]

/-- The head of a stripped string is not whitespace. -/
theorem stripWs_head (l : Str) (c : Char)
    (h : (stripWs l).head? = some c) : c.isWhitespace = false := by
  unfold stripWs strip lstrip rstrip at h
  set A := l.dropWhile Char.isWhitespace with hA
  set S := A.reverse.dropWhile Char.isWhitespace with hS
  have hpre : S.reverse <+: A := by
    apply List.reverse_suffix.1
    rw [List.reverse_reverse]
    exact List.dropWhile_suffix _
  obtain ⟨t, ht⟩ := hpre
  have hA2 : A.head? = some c := by
    rw [← ht, List.head?_append, h]
    rfl
  exact head_dropWhile_false _ l c hA2

/-- The last character of a stripped string is not whitespace. -/
theorem stripWs_revhead (l : Str) (c : Char)
    (h : (stripWs l).reverse.head? = some c) : c.isWhitespace = false := by
  unfold stripWs strip lstrip rstrip at h
  rw [List.reverse_reverse] at h
  exact head_dropWhile_false _ _ c h

/-- Unfolding of `clean_name` as a character-wise map after stripping. -/
theorem clean_name_eq (s : Str) : clean_name s = (stripWs s).map cleanChar := by
  unfold clean_name replaceSpace lowerStr cleanChar
  rw [List.map_map]
  rfl

/-- The head of a cleaned column name is not whitespace. -/
theorem clean_name_head (s : Str) (c : Char) (h : (clean_name s).head? = some c) :
    c.isWhitespace = false := by
  rw [clean_name_eq, List.head?_map] at h
  obtain ⟨c0, hh, hc⟩ := Option.map_eq_some'.1 h
  exact hc ▸ cleanChar_not_ws c0 (stripWs_head s c0 hh)

/-- The last character of a cleaned column name is not whitespace. -/
theorem clean_name_revhead (s : Str) (c : Char)
    (h : (clean_name s).reverse.head? = some c) : c.isWhitespace = false := by
  rw [clean_name_eq, ← List.map_reverse, List.head?_map] at h
  obtain ⟨c0, hh, hc⟩ := Option.map_eq_some'.1 h
  exact hc ▸ cleanChar_not_ws c0 (stripWs_revhead s c0 hh)

/-- Cleaning a column name twice equals cleaning it once. -/
theorem clean_name_idem (s : Str) : clean_name (clean_name s) = clean_name s := by
  have h1 : stripWs (clean_name s) = clean_name s :=
    stripWs_eq_self _ (clean_name_head s) (clean_name_revhead s)
  rw [clean_name_eq (clean_name s), h1, clean_name_eq s, List.map_map]
  exact List.map_congr_left (fun a _ => cleanChar_idem a)

/- Table-plumbing lemmas: cell access through column maps and filters. -/

/-- Modifying index `i` applies `f` to the entry read at index `i`. -/
theorem modifyAt_get_self (f : Value → Value) (i : Nat) (r : List Value) :
    (modifyAt f i r)[i]? = r[i]?.map f := by
  induction r generalizing i with
  | nil => simp [modifyAt]
  | cons v vs ih =>
    cases i with
    | zero => simp [modifyAt]
    | succ j => simpa [modifyAt] using ih j

/-- Modifying index `i` leaves the entry at a different index unchanged. -/
theorem modifyAt_get_ne (f : Value → Value) (i j : Nat) (r : List Value)
    (h : j ≠ i) : (modifyAt f i r)[j]? = r[j]? := by
  induction r generalizing i j with
  | nil => simp [modifyAt]
  | cons v vs ih =>
    cases i with
    | zero =>
      cases j with
      | zero => exact absurd rfl h
      | succ k => simp [modifyAt]
    | succ i' =>
      cases j with
      | zero => simp [modifyAt]
      | succ k => simpa [modifyAt] using ih i' k (fun hk => h (by rw [hk]))

/-- A found index points at an element satisfying the predicate. -/
theorem findIdxO_some (p : Str → Bool) (l : List Str) (i : Nat)
    (h : findIdxO p l = some i) : ∃ x, l[i]? = some x ∧ p x = true := by
  induction l generalizing i with
  | nil => simp [findIdxO] at h
  | cons a l ih =>
    by_cases hp : p a
    · rw [findIdxO, if_pos hp] at h
      cases h
      exact ⟨a, by simp, hp⟩
    · rw [findIdxO, if_neg hp] at h
      obtain ⟨j, hj, rfl⟩ := Option.map_eq_some'.1 h
      obtain ⟨x, hx, hpx⟩ := ih j hj
      exact ⟨x, by simpa using hx, hpx⟩

/-- A present column name has an index. -/
theorem findIdxO_mem (c : Str) (l : List Str) (h : c ∈ l) :
    ∃ i, findIdxO (fun n => n == c) l = some i := by
  induction l with
  | nil => simp at h
  | cons a l ih =>
    by_cases ha : a == c
    · exact ⟨0, by rw [findIdxO, if_pos ha]⟩
    · have hc : c ∈ l := by
        rcases List.mem_cons.1 h with h1 | h1
        · subst h1
          simp at ha
        · exact h1
      obtain ⟨j, hj⟩ := ih hc
      exact ⟨j + 1, by rw [findIdxO, if_neg (by simpa using ha), hj]; rfl⟩

/-- Reading the mapped column sees the function applied to the old cell. -/
theorem getCell_mapColRow_self (cols : List Str) (c : Str) (f : Value → Value)
    (r : List Value) :
    getCell cols (mapColRow cols c f r) c = (getCell cols r c).map f := by
  unfold getCell mapColRow
  cases hf : findIdxO (fun n => n == c) cols with
  | none => rfl
  | some i => exact modifyAt_get_self f i r

/-- Reading a different column is unaffected by a column map. -/
theorem getCell_mapColRow_ne (cols : List Str) (c c' : Str) (f : Value → Value)
    (r : List Value) (h : c' ≠ c) :
    getCell cols (mapColRow cols c f r) c' = getCell cols r c' := by
  unfold getCell mapColRow
  cases hf : findIdxO (fun n => n == c) cols with
  | none => rfl
  | some i =>
    cases hg : findIdxO (fun n => n == c') cols with
    | none => rfl
    | some j =>
      apply modifyAt_get_ne
      intro hij
      obtain ⟨x, hx, hpx⟩ := findIdxO_some _ _ _ hf
      obtain ⟨y, hy, hpy⟩ := findIdxO_some _ _ _ hg
      rw [hij, hx] at hy
      cases hy
      exact h ((eq_of_beq hpy).symm.trans (eq_of_beq hpx))

/-- Mapping a column does not change the column names. -/
theorem mapCol_cols (t : Table) (c : Str) (f : Value → Value) :
    (mapCol t c f).cols = t.cols := rfl

/-- Dropping missing rows does not change the column names. -/
theorem dropna_cols (t : Table) (cs : List Str) : (dropna t cs).cols = t.cols := rfl

/-- Deduplicated rows form a sublist of the original rows. -/
theorem dedupGo_sublist (seen : List (List Value)) (l : List (List Value)) :
    (dedupGo seen l).Sublist l := by
  induction l generalizing seen with
  | nil => simp [dedupGo]
  | cons r rs ih =>
    rw [dedupGo]
    by_cases h : r ∈ seen
    · rw [if_pos h]
      exact (ih seen).cons r
    · rw [if_neg h]
      exact (ih (r :: seen)).cons₂ r

/- Stage-level lemmas. -/

/-- Stage 1 does not change the row data. -/
theorem clean_column_names_rows (t : Table) :
    (clean_column_names t).rows = t.rows := rfl

/-- Stage 2 does not change the column names. -/
theorem clean_categories_cols (t : Table) :
    (clean_categories t).cols = t.cols := by
  unfold clean_categories
  split <;> rfl

/-- Stage 3 does not change the column names. -/
theorem clean_dates_cols (P : Str → Option Int) (t : Table) :
    (clean_dates P t).cols = t.cols := by
  unfold clean_dates
  split <;> rfl

/-- The prodname half of stage 4 does not change the column names. -/
theorem clean_prodname_col_cols (t : Table) :
    (clean_prodname_col t).cols = t.cols := by
  unfold clean_prodname_col
  split <;> rfl

/-- A successful numeric-coercion half of stage 4 does not change the
column names, and requires `price` and `qty` to be present. -/
theorem coerce_and_drop_some (N : Str → Option Rat) (t t' : Table)
    (h : coerce_and_drop N t = some t') :
    t'.cols = t.cols ∧ colPrice ∈ t.cols ∧ colQty ∈ t.cols := by
  unfold coerce_and_drop at h
  by_cases hp : colPrice ∈ t.cols
  · rw [if_pos hp] at h
    by_cases hq : colQty ∈ t.cols
    · rw [if_pos hq] at h
      cases h
      exact ⟨rfl, hp, hq⟩
    · rw [if_neg hq] at h
      cases h
  · rw [if_neg hp] at h
    cases h

/-- A successful stage 4 does not change the column names. -/
theorem handle_missing_values_cols (N : Str → Option Rat) (t t' : Table)
    (h : handle_missing_values N t = some t') : t'.cols = t.cols := by
  unfold handle_missing_values at h
  have := (coerce_and_drop_some N _ _ h).1
  rw [this, clean_prodname_col_cols]

/-- Unfolding of a successful stage 5: the columns are unchanged and the
rows are filtered by the `price > 0 AND qty > 0` test. -/
theorem remove_invalid_rows_some (t t' : Table)
    (h : remove_invalid_rows t = some t') :
    t'.cols = t.cols ∧
    t'.rows = t.rows.filter (fun r => (rowValid t.cols r).getD false) := by
  unfold remove_invalid_rows at h
  by_cases hp : colPrice ∈ t.cols
  · rw [if_pos hp] at h
    by_cases hq : colQty ∈ t.cols
    · rw [if_pos hq] at h
      by_cases ha : t.rows.all (fun r => (rowValid t.cols r).isSome)
      · rw [if_pos ha] at h
        cases h
        exact ⟨rfl, rfl⟩
      · rw [if_neg ha] at h
        cases h
    · rw [if_neg hq] at h
      cases h
  · rw [if_neg hp] at h
    cases h

/-- A row passing the stage-5 test has a positive numeric price and a
positive numeric qty. -/
theorem rowValid_true (cols : List Str) (r : List Value)
    (h : rowValid cols r = some true) :
    ∃ p q : Rat, getCell cols r colPrice = some (.num p) ∧ 0 < p ∧
      getCell cols r colQty = some (.num q) ∧ 0 < q := by
  unfold rowValid at h
  obtain ⟨vp, hvp, h⟩ := Option.bind_eq_some.1 h
  obtain ⟨vq, hvq, h⟩ := Option.bind_eq_some.1 h
  obtain ⟨bp, hbp, h⟩ := Option.bind_eq_some.1 h
  obtain ⟨bq, hbq, h⟩ := Option.bind_eq_some.1 h
  have hbb : (bp && bq) = true := Option.some.inj h
  rw [Bool.and_eq_true] at hbb
  obtain ⟨hbp2, hbq2⟩ := hbb
  subst hbp2
  subst hbq2
  cases vp with
  | num p =>
    cases vq with
    | num q =>
      refine ⟨p, q, hvp, ?_, hvq, ?_⟩
      · exact of_decide_eq_true (Option.some.inj hbp)
      · exact of_decide_eq_true (Option.some.inj hbq)
    | str s => exact absurd hbq (by simp [gtZero])
    | date d => exact absurd hbq (by simp [gtZero])
    | na => exact absurd hbq (by simp [gtZero])
  | str s => exact absurd hbp (by simp [gtZero])
  | date d => exact absurd hbp (by simp [gtZero])
  | na => exact absurd hbp (by simp [gtZero])

/-- Decomposition of a successful pipeline run into its stage results. -/
theorem pipeline_some (P : Str → Option Int) (N : Str → Option Rat)
    (t out : Table) (h : pipeline P N t = some out) :
    ∃ t4 t5,
      handle_missing_values N
        (clean_dates P (clean_categories (clean_column_names t))) = some t4 ∧
      remove_invalid_rows t4 = some t5 ∧ out = drop_duplicates t5 := by
  unfold pipeline at h
  obtain ⟨t4, h4, h⟩ := Option.bind_eq_some.1 h
  obtain ⟨t5, h5, h⟩ := Option.bind_eq_some.1 h
  exact ⟨t4, t5, h4, h5, (Option.some.inj h).symm⟩

/- Deduplication lemmas. -/

/-- Deduplicated rows are duplicate-free and avoid the accumulator. -/
theorem dedupGo_nodup (seen : List (List Value)) (l : List (List Value)) :
    (dedupGo seen l).Nodup ∧ ∀ r ∈ dedupGo seen l, r ∉ seen := by
  induction l generalizing seen with
  | nil => exact ⟨List.nodup_nil, by simp [dedupGo]⟩
  | cons r rs ih =>
    rw [dedupGo]
    by_cases h : r ∈ seen
    · rw [if_pos h]
      exact ih seen
    · rw [if_neg h]
      obtain ⟨ih1, ih2⟩ := ih (r :: seen)
      refine ⟨List.nodup_cons.2 ⟨fun hr => ?_, ih1⟩, ?_⟩
      · exact ih2 r hr (List.mem_cons_self r seen)
      · intro x hx
        rcases List.mem_cons.1 hx with rfl | hx2
        · exact h
        · exact fun hxs => ih2 x hx2 (List.mem_cons_of_mem r hxs)

/-- Membership in the deduplicated rows: exactly the original rows not in
the accumulator. -/
theorem dedupGo_mem (seen : List (List Value)) (l : List (List Value))
    (r : List Value) : r ∈ dedupGo seen l ↔ r ∈ l ∧ r ∉ seen := by
  induction l generalizing seen with
  | nil => simp [dedupGo]
  | cons a rs ih =>
    rw [dedupGo]
    by_cases h : a ∈ seen
    · rw [if_pos h, ih seen]
      constructor
      · rintro ⟨h1, h2⟩
        exact ⟨List.mem_cons_of_mem a h1, h2⟩
      · rintro ⟨h1, h2⟩
        rcases List.mem_cons.1 h1 with rfl | h3
        · exact absurd h h2
        · exact ⟨h3, h2⟩
    · rw [if_neg h]
      constructor
      · intro hx
        rcases List.mem_cons.1 hx with rfl | hx2
        · exact ⟨List.mem_cons_self r rs, h⟩
        · obtain ⟨h1, h2⟩ := (ih (a :: seen)).1 hx2
          exact ⟨List.mem_cons_of_mem a h1,
            fun hs => h2 (List.mem_cons_of_mem a hs)⟩
      · rintro ⟨h1, h2⟩
        rcases List.mem_cons.1 h1 with rfl | h3
        · exact List.mem_cons_self r _
        · by_cases hr : r = a
          · subst hr
            exact List.mem_cons_self r _
          · refine List.mem_cons_of_mem a ((ih (a :: seen)).2 ⟨h3, ?_⟩)
            intro hs
            rcases List.mem_cons.1 hs with h4 | h4
            · exact hr h4
            · exact h2 h4

/-- The implementation of the Deduplicator agrees with the specification
reading whenever the two accumulators hold the same rows. -/
theorem dedupGo_eq_keepFirstGo (l : List (List Value))
    (seen pre : List (List Value)) (hsp : ∀ x, x ∈ seen ↔ x ∈ pre) :
    dedupGo seen l = keepFirstGo pre l := by
  induction l generalizing seen pre with
  | nil => rfl
  | cons r rs ih =>
    rw [dedupGo, keepFirstGo]
    have hnext : ∀ x, x ∈ r :: seen ↔ x ∈ pre ++ [r] := by
      intro x
      rw [List.mem_cons, List.mem_append, List.mem_singleton, hsp x, or_comm]
    by_cases h : r ∈ seen
    · rw [if_pos h, if_pos ((hsp r).1 h)]
      apply ih
      intro x
      rw [List.mem_append, List.mem_singleton, ← hsp x]
      constructor
      · exact fun hx => Or.inl hx
      · rintro (hx | rfl)
        · exact hx
        · exact h
    · rw [if_neg h, if_neg (fun hpre => h ((hsp r).2 hpre))]
      rw [ih (r :: seen) (pre ++ [r]) hnext]

/- Generic provenance lemmas for filtered and mapped row lists. -/

/-- A member of a filtered map comes from an original row and passes the
filter. -/
theorem mem_filter_map_prov {l : List (List Value)}
    {f : List Value → List Value} {p : List Value → Bool} {r : List Value}
    (h : r ∈ (l.map f).filter p) :
    ∃ r0, r0 ∈ l ∧ r = f r0 ∧ p (f r0) = true := by
  have h1 := List.mem_filter.1 h
  obtain ⟨r0, hr0, hfr⟩ := List.mem_map.1 h1.1
  exact ⟨r0, hr0, hfr.symm, by rw [hfr]; exact h1.2⟩

/-- In a rectangular table, every present column has a cell in every row. -/
theorem getCell_isSome_of_rect (cols : List Str) (r : List Value) (c : Str)
    (hc : c ∈ cols) (hr : r.length = cols.length) :
    ∃ v, getCell cols r c = some v := by
  obtain ⟨i, hi⟩ := findIdxO_mem c cols hc
  obtain ⟨x, hx, _⟩ := findIdxO_some _ _ _ hi
  have hilt : i < cols.length := by
    by_contra hge
    rw [List.getElem?_eq_none (by omega)] at hx
    cases hx
  unfold getCell
  rw [hi]
  have hlt : i < r.length := by omega
  exact ⟨r[i], List.getElem?_eq_getElem hlt⟩

/-- Row transforms of stage 2 through 4 preserve row length. -/
theorem modifyAt_length (f : Value → Value) (i : Nat) (r : List Value) :
    (modifyAt f i r).length = r.length := by
  induction r generalizing i with
  | nil => cases i <;> rfl
  | cons v vs ih =>
    cases i with
    | zero => rfl
    | succ j => simpa [modifyAt] using ih j

/-- Mapping a column preserves row length. -/
theorem mapColRow_length (cols : List Str) (c : Str) (f : Value → Value)
    (r : List Value) : (mapColRow cols c f r).length = r.length := by
  unfold mapColRow
  cases findIdxO (fun n => n == c) cols with
  | none => rfl
  | some i => exact modifyAt_length f i r

/- Further helper lemmas for stages 3 and 4. -/

/-- Three stacked maps fuse into one. -/
theorem map_map_map (g0 g1 g2 h : List Value → List Value)
    (l : List (List Value)) (hh : ∀ r, g2 (g1 (g0 r)) = h r) :
    ((l.map g0).map g1).map g2 = l.map h := by
  induction l with
  | nil => rfl
  | cons a l ih =>
    simp only [List.map_cons]
    rw [hh a, ih]

/-- Two stacked maps fuse into one. -/
theorem map_map_two (g1 g2 h : List Value → List Value)
    (l : List (List Value)) (hh : ∀ r, g2 (g1 r) = h r) :
    (l.map g1).map g2 = l.map h := by
  induction l with
  | nil => rfl
  | cons a l ih =>
    simp only [List.map_cons]
    rw [hh a, ih]

/-- The two-column dropna filter in conjunction form. -/
theorem filter_all_two (l : List (List Value)) (cols : List Str) :
    l.filter (fun r => List.all [colPrice, colQty] (fun c => notNaCell cols c r)) =
    l.filter (fun r => notNaCell cols colPrice r && notNaCell cols colQty r) :=
  List.filter_congr (fun r _ => by simp)

/-- A passing missing-value test means the cell is not the marker. -/
theorem notNaCell_true (cols : List Str) (c : Str) (r : List Value)
    (h : notNaCell cols c r = true) : getCell cols r c ≠ some Value.na := by
  unfold notNaCell at h
  intro hc
  rw [hc] at h
  simp at h

/-- Unfolding of a successful stage 4: its rows are the per-row transform
of the input rows, keeping exactly the rows whose transformed price and
qty cells are not the missing marker. -/
theorem handle_missing_values_rows (N : Str → Option Rat) (t t' : Table)
    (h : handle_missing_values N t = some t') :
    t'.rows = (t.rows.map (hmvRowTransform N t.cols)).filter
      (fun r => notNaCell t.cols colPrice r && notNaCell t.cols colQty r) := by
  have hu := clean_prodname_col_cols t
  unfold handle_missing_values coerce_and_drop at h
  rw [hu] at h
  by_cases hp : colPrice ∈ t.cols
  · rw [if_pos hp] at h
    by_cases hq : colQty ∈ t.cols
    · rw [if_pos hq] at h
      have ht' := Option.some.inj h
      rw [← ht']
      unfold clean_prodname_col
      by_cases hpr : colProdname ∈ t.cols
      · rw [if_pos hpr]
        simp only [dropna, mapCol]
        rw [map_map_map _ _ _ (hmvRowTransform N t.cols) t.rows
          (fun r => by simp [hmvRowTransform, if_pos hpr])]
        exact filter_all_two _ _
      · rw [if_neg hpr]
        simp only [dropna, mapCol]
        rw [map_map_two _ _ (hmvRowTransform N t.cols) t.rows
          (fun r => by simp [hmvRowTransform, if_neg hpr])]
        exact filter_all_two _ _
    · rw [if_neg hq] at h
      cases h
  · rw [if_neg hp] at h
    cases h

/-- The stage-4 row transform does not touch columns other than prodname,
price and qty. -/
theorem hmvRowTransform_getCell_ne (N : Str → Option Rat) (cols : List Str)
    (r : List Value) (c : Str) (h1 : c ≠ colQty) (h2 : c ≠ colPrice)
    (h3 : c ≠ colProdname) :
    getCell cols (hmvRowTransform N cols r) c = getCell cols r c := by
  unfold hmvRowTransform
  rw [getCell_mapColRow_ne _ _ _ _ _ h1, getCell_mapColRow_ne _ _ _ _ _ h2]
  by_cases hpr : colProdname ∈ cols
  · rw [if_pos hpr, getCell_mapColRow_ne _ _ _ _ _ h3]
  · rw [if_neg hpr]

/-- The stage-4 row transform maps the prodname cell through the prodname
normalization. -/
theorem hmvRowTransform_prodname (N : Str → Option Rat) (cols : List Str)
    (r : List Value) (h : colProdname ∈ cols) :
    getCell cols (hmvRowTransform N cols r) colProdname =
      (getCell cols r colProdname).map prodnameMapValue := by
  unfold hmvRowTransform
  rw [getCell_mapColRow_ne _ _ _ _ _ (by decide),
    getCell_mapColRow_ne _ _ _ _ _ (by decide), if_pos h,
    getCell_mapColRow_self]

/-- Unfolding of one `titleGo` step. -/
theorem titleGo_cons (b : Bool) (c : Char) (rest : Str) :
    titleGo b (c :: rest) =
      if c.isAlpha then
        (if b then c.toLower else c.toUpper) :: titleGo true rest
      else c :: titleGo false rest := rfl

/-- Title-casing distributes over a space separator. -/
theorem titleGo_append_space (b : Bool) (w1 w2 : Str) :
    titleGo b (w1 ++ ' ' :: w2) = titleGo b w1 ++ ' ' :: titleGo false w2 := by
  induction w1 generalizing b with
  | nil =>
    rw [show ([] : Str) ++ ' ' :: w2 = ' ' :: w2 from rfl, titleGo_cons,
      if_neg (by decide)]
    rfl
  | cons c cs ih =>
    rw [show (c :: cs) ++ ' ' :: w2 = c :: (cs ++ ' ' :: w2) from rfl,
      titleGo_cons, titleGo_cons]
    by_cases hc : c.isAlpha
    · rw [if_pos hc, if_pos hc, ih true, List.cons_append]
    · rw [if_neg hc, if_neg hc, ih false, List.cons_append]

/-- After a cased character, title-casing lowercases an all-alphabetic
rest of a word. -/
theorem titleGo_true_alpha (cs : Str) (h : ∀ x ∈ cs, x.isAlpha = true) :
    titleGo true cs = lowerStr cs := by
  induction cs with
  | nil => rfl
  | cons x xs ih =>
    unfold titleGo
    rw [if_pos (h x (List.mem_cons_self x xs)),
      ih (fun y hy => h y (List.mem_cons_of_mem x hy))]
    rfl

/-- A number-or-marker cell is a number or the marker. -/
theorem numOrNa_cases (cols : List Str) (c : Str) (r : List Value)
    (h : numOrNa cols c r = true) :
    ∃ v, getCell cols r c = some v ∧
      (v = Value.na ∨ ∃ x, v = Value.num x) := by
  unfold numOrNa at h
  cases hg : getCell cols r c with
  | none => rw [hg] at h; cases h
  | some v =>
    rw [hg] at h
    cases v with
    | num x => exact ⟨.num x, rfl, Or.inr ⟨x, rfl⟩⟩
    | na => exact ⟨.na, rfl, Or.inl rfl⟩
    | str s => cases h
    | date d => cases h

/-- On number-or-marker price and qty cells the stage-5 comparison is
defined. -/
theorem rowValid_isSome_of_numOrNa (cols : List Str) (r : List Value)
    (h1 : numOrNa cols colPrice r = true) (h2 : numOrNa cols colQty r = true) :
    (rowValid cols r).isSome = true := by
  obtain ⟨vp, hvp, hvp2⟩ := numOrNa_cases _ _ _ h1
  obtain ⟨vq, hvq, hvq2⟩ := numOrNa_cases _ _ _ h2
  have hgp : ∃ bp, gtZero vp = some bp := by
    rcases hvp2 with rfl | ⟨x, rfl⟩
    exacts [⟨false, rfl⟩, ⟨_, rfl⟩]
  have hgq : ∃ bq, gtZero vq = some bq := by
    rcases hvq2 with rfl | ⟨x, rfl⟩
    exacts [⟨false, rfl⟩, ⟨_, rfl⟩]
  obtain ⟨bp, hbp⟩ := hgp
  obtain ⟨bq, hbq⟩ := hgq
  simp [rowValid, hvp, hvq, hbp, hbq]

/-- A row whose price or qty cell is the marker fails the stage-5 test
(pandas: `NaN > 0` is false). -/
theorem rowValid_false_of_na (cols : List Str) (r : List Value)
    (h1 : numOrNa cols colPrice r = true) (h2 : numOrNa cols colQty r = true)
    (hna : getCell cols r colPrice = some Value.na ∨
      getCell cols r colQty = some Value.na) :
    rowValid cols r = some false := by
  obtain ⟨vp, hvp, hvp2⟩ := numOrNa_cases _ _ _ h1
  obtain ⟨vq, hvq, hvq2⟩ := numOrNa_cases _ _ _ h2
  have hgq : ∃ bq, gtZero vq = some bq := by
    rcases hvq2 with rfl | ⟨x, rfl⟩
    exacts [⟨false, rfl⟩, ⟨_, rfl⟩]
  have hgp : ∃ bp, gtZero vp = some bp := by
    rcases hvp2 with rfl | ⟨x, rfl⟩
    exacts [⟨false, rfl⟩, ⟨_, rfl⟩]
  obtain ⟨bp, hbp⟩ := hgp
  obtain ⟨bq, hbq⟩ := hgq
  rcases hna with hn | hn
  · have hvpna : vp = Value.na := by
      rw [hn] at hvp
      exact (Option.some.inj hvp).symm
    subst hvpna
    have hbpf : bp = false := (Option.some.inj hbp).symm
    subst hbpf
    simp [rowValid, hn, hvq, hbp, hbq]
  · have hvqna : vq = Value.na := by
      rw [hn] at hvq
      exact (Option.some.inj hvq).symm
    subst hvqna
    have hbqf : bq = false := (Option.some.inj hbq).symm
    subst hbqf
    simp [rowValid, hvp, hn, hbp, hbq]

/- Helper lemmas for the Date Normalizer and its pipeline consequence. -/

/-- Stage 1 preserves rectangularity. -/
theorem clean_column_names_rect (t : Table) (h : rect t) :
    rect (clean_column_names t) := by
  intro r hr
  rw [clean_column_names_rows] at hr
  rw [show (clean_column_names t).cols = t.cols.map clean_name from rfl,
    List.length_map]
  exact h r hr

/-- Stage 2 preserves rectangularity. -/
theorem clean_categories_rect (t : Table) (h : rect t) :
    rect (clean_categories t) := by
  intro r hr
  rw [clean_categories_cols]
  unfold clean_categories at hr
  by_cases hc : colCategory ∈ t.cols
  · rw [if_pos hc] at hr
    simp only [mapCol] at hr
    obtain ⟨r0, hr0, rfl⟩ := List.mem_map.1 hr
    rw [mapColRow_length]
    exact h r0 hr0
  · rw [if_neg hc] at hr
    exact h r hr

/-- Unfolding of stage 3 when the date column is present: convert the
date cells, keep exactly the rows whose converted cell is not the
marker. -/
theorem clean_dates_rows (P : Str → Option Int) (t : Table)
    (hd : colDateSold ∈ t.cols) :
    (clean_dates P t).rows =
      (t.rows.map (mapColRow t.cols colDateSold (to_datetime P))).filter
        (fun r => notNaCell t.cols colDateSold r) := by
  unfold clean_dates
  rw [if_pos hd]
  simp only [dropna, mapCol]
  exact List.filter_congr (fun r _ => by simp)

/-- The datetime conversion returns only the marker or a date. -/
theorem to_datetime_total (P : Str → Option Int) (v : Value) :
    to_datetime P v = Value.na ∨ ∃ d, to_datetime P v = .date d := by
  cases v with
  | str s =>
    cases hp : P s with
    | none => exact Or.inl (by simp [to_datetime, hp])
    | some d => exact Or.inr ⟨d, by simp [to_datetime, hp]⟩
  | na => exact Or.inl rfl
  | num q => exact Or.inr ⟨q.floor, rfl⟩
  | date d => exact Or.inr ⟨d, rfl⟩

/-- After stage 3 on a rectangular table with a date column, every
surviving row holds a parsed date. -/
theorem clean_dates_parsed (P : Str → Option Int) (t : Table)
    (hd : colDateSold ∈ t.cols) (hrect : rect t) :
    ∀ r ∈ (clean_dates P t).rows,
      ∃ d, getCell t.cols r colDateSold = some (.date d) := by
  intro r hr
  rw [clean_dates_rows P t hd] at hr
  obtain ⟨r0, hr0, rfl, hp⟩ := mem_filter_map_prov hr
  obtain ⟨v, hv⟩ := getCell_isSome_of_rect t.cols r0 colDateSold hd (hrect r0 hr0)
  have hcell : getCell t.cols
      (mapColRow t.cols colDateSold (to_datetime P) r0) colDateSold =
      some (to_datetime P v) := by
    rw [getCell_mapColRow_self, hv]
    rfl
  rcases to_datetime_total P v with hna | ⟨d, hdq⟩
  · exact absurd (by rw [hcell, hna]) (notNaCell_true _ _ _ hp)
  · exact ⟨d, by rw [hcell, hdq]⟩

/-- Every row of a successful pipeline run on a rectangular input with a
date_sold column (after column normalization) holds a parsed date. -/
theorem pipeline_parsed_dates (P : Str → Option Int) (N : Str → Option Rat)
    (u out : Table) (h : pipeline P N u = some out)
    (hud : colDateSold ∈ (clean_column_names u).cols) (hrect : rect u) :
    ∀ r ∈ out.rows, ∃ d, getCell out.cols r colDateSold = some (.date d) := by
  obtain ⟨t4, t5, h4, h5, rfl⟩ := pipeline_some P N u out h
  set t1 := clean_column_names u with ht1
  set t2 := clean_categories t1 with ht2
  set t3 := clean_dates P t2 with ht3
  have hd2 : colDateSold ∈ t2.cols := by
    rw [ht2, clean_categories_cols]
    exact hud
  have hrect2 : rect t2 := clean_categories_rect t1 (clean_column_names_rect u hrect)
  have hp3 : ∀ r ∈ t3.rows, ∃ d, getCell t2.cols r colDateSold = some (.date d) :=
    clean_dates_parsed P t2 hd2 hrect2
  have hc3 : t3.cols = t2.cols := clean_dates_cols P t2
  have hc4 : t4.cols = t3.cols := handle_missing_values_cols N t3 t4 h4
  obtain ⟨hc5, hr5⟩ := remove_invalid_rows_some t4 t5 h5
  intro r hr
  have hrt5 : r ∈ t5.rows := ((dedupGo_mem [] t5.rows r).1 hr).1
  rw [hr5] at hrt5
  have hrt4 : r ∈ t4.rows := (List.mem_filter.1 hrt5).1
  rw [handle_missing_values_rows N t3 t4 h4] at hrt4
  obtain ⟨r3, hr3, rfl, _⟩ := mem_filter_map_prov hrt4
  obtain ⟨d, hd⟩ := hp3 r3 hr3
  refine ⟨d, ?_⟩
  rw [show (drop_duplicates t5).cols = t5.cols from rfl, hc5, hc4, hc3]
  rw [← hc3, hmvRowTransform_getCell_ne N t3.cols r3 colDateSold
    (by decide) (by decide) (by decide), hc3]
  exact hd

/- Claim theorems. -/

/-- C6: the Column Normalizer `clean_column_names` is idempotent: applying
it twice to any table yields the same table as applying it once. -/
theorem C6_column_normalizer_idempotent (t : Table) :
    clean_column_names (clean_column_names t) = clean_column_names t := by
  unfold clean_column_names
  congr 1
  rw [List.map_map]
  exact List.map_congr_left (fun a _ => clean_name_idem a)

/-- C8: a stage whose optional column is absent returns its input
unchanged instead of failing: `clean_categories` without a `category`
column, `clean_dates` without a `date_sold` column, and the prodname
normalization inside `handle_missing_values` without a `prodname`
column. -/
theorem C8_optional_columns_noop (P : Str → Option Int) (N : Str → Option Rat)
    (t : Table) :
    (colCategory ∉ t.cols → clean_categories t = t) ∧
    (colDateSold ∉ t.cols → clean_dates P t = t) ∧
    (colProdname ∉ t.cols → clean_prodname_col t = t ∧
      handle_missing_values N t = coerce_and_drop N t) := by
  refine ⟨fun h => ?_, fun h => ?_, fun h => ?_⟩
  · unfold clean_categories
    rw [if_neg h]
  · unfold clean_dates
    rw [if_neg h]
  · have h1 : clean_prodname_col t = t := by
      unfold clean_prodname_col
      rw [if_neg h]
    refine ⟨h1, ?_⟩
    unfold handle_missing_values
    rw [h1]

/-- Witness for C8 at the empty table. -/
theorem C8_optional_columns_noop_w : clean_categories exEmpty = exEmpty :=
  (C8_optional_columns_noop (fun _ => none) (fun _ => none) exEmpty).1 (by decide)

/-- C2: after converting a category value to text, stripping whitespace
and quotes, collapsing internal whitespace and lowercasing, the Category
Normalizer maps a value containing "office" to the string office, then
(first match wins, in priority order) "electronic" to electronics,
"kitchen" to kitchen, "fitness" to fitness, and keeps every other value
as the cleaned lowercase string; the stage applies exactly this map to
every category cell. -/
theorem C2_category_canonicalization (t : Table) (ht : colCategory ∈ t.cols)
    (v : Value) :
    ((clean_categories t).rows =
      t.rows.map (mapColRow t.cols colCategory categoryMapValue)) ∧
    (containsSub officeS (cleanCat (pyStr v)) = true →
      categoryMapValue v = .str officeS) ∧
    (containsSub officeS (cleanCat (pyStr v)) = false →
      containsSub electronicS (cleanCat (pyStr v)) = true →
      categoryMapValue v = .str electronicsS) ∧
    (containsSub officeS (cleanCat (pyStr v)) = false →
      containsSub electronicS (cleanCat (pyStr v)) = false →
      containsSub kitchenS (cleanCat (pyStr v)) = true →
      categoryMapValue v = .str kitchenS) ∧
    (containsSub officeS (cleanCat (pyStr v)) = false →
      containsSub electronicS (cleanCat (pyStr v)) = false →
      containsSub kitchenS (cleanCat (pyStr v)) = false →
      containsSub fitnessS (cleanCat (pyStr v)) = true →
      categoryMapValue v = .str fitnessS) ∧
    (containsSub officeS (cleanCat (pyStr v)) = false →
      containsSub electronicS (cleanCat (pyStr v)) = false →
      containsSub kitchenS (cleanCat (pyStr v)) = false →
      containsSub fitnessS (cleanCat (pyStr v)) = false →
      categoryMapValue v = .str (cleanCat (pyStr v))) := by
  refine ⟨?_, ?_, ?_, ?_, ?_, ?_⟩
  · unfold clean_categories
    rw [if_pos ht]
    rfl
  all_goals
    intros
    unfold categoryMapValue normalize_category
    simp_all

/-- Witness for C2: spec Scenario 2, a category cell containing OFFICE in
capitals with stray whitespace normalizes to office. -/
theorem C2_category_canonicalization_w :
    categoryMapValue (Value.str exCategoryRaw) = Value.str officeS :=
  ((C2_category_canonicalization { cols := [colCategory], rows := [] }
    (by decide) (Value.str exCategoryRaw)).2.1 (by decide))

/-- C9: a missing category value is rendered as the literal text token
nan before substring matching — it is neither skipped nor left as the
missing marker — and that token flows through exactly the same
canonicalization map as every other category cell. -/
theorem C9_missing_category_token (t : Table) (ht : colCategory ∈ t.cols) :
    pyStr Value.na = nanToken ∧
    categoryMapValue Value.na = .str (normalize_category (cleanCat nanToken)) ∧
    categoryMapValue Value.na ≠ Value.na ∧
    (clean_categories t).rows =
      t.rows.map (mapColRow t.cols colCategory categoryMapValue) := by
  refine ⟨rfl, rfl, by decide, ?_⟩
  unfold clean_categories
  rw [if_pos ht]
  rfl

/-- Witness for C9: the normalized missing category is a string token,
not the missing marker. -/
theorem C9_missing_category_token_w : categoryMapValue Value.na ≠ Value.na :=
  (C9_missing_category_token { cols := [colCategory], rows := [] }
    (by decide)).2.2.1

/-- C5: the Deduplicator keeps, among identical rows, only the first
occurrence in current row order (its rows are the keep-first subsequence
of its input rows), otherwise preserving row order; consequently no two
distinct rows of the final pipeline output agree in every column value. -/
theorem C5_deduplicator (t : Table) (P : Str → Option Int)
    (N : Str → Option Rat) (u out : Table) (h : pipeline P N u = some out) :
    (drop_duplicates t).cols = t.cols ∧
    (drop_duplicates t).rows = keepFirstSpec t.rows ∧
    (drop_duplicates t).rows.Sublist t.rows ∧
    (∀ r, r ∈ (drop_duplicates t).rows ↔ r ∈ t.rows) ∧
    (drop_duplicates t).rows.Nodup ∧
    out.rows.Pairwise (fun r1 r2 => r1 ≠ r2) := by
  refine ⟨rfl, dedupGo_eq_keepFirstGo t.rows [] [] (fun x => Iff.rfl),
    dedupGo_sublist [] t.rows, ?_, (dedupGo_nodup [] t.rows).1, ?_⟩
  · intro r
    rw [show (drop_duplicates t).rows = dedupGo [] t.rows from rfl,
      dedupGo_mem [] t.rows r]
    simp
  · obtain ⟨t4, t5, h4, h5, rfl⟩ := pipeline_some P N u out h
    exact (dedupGo_nodup [] t5.rows).1

/-- Witness for C5 on the sample pipeline run. -/
theorem C5_deduplicator_w :
    (drop_duplicates exTable).rows = keepFirstSpec exTable.rows :=
  (C5_deduplicator exTable exDateParser exNumParser exTable exPipelineOut
    (by decide)).2.1

/-- C1: every row of a successful full pipeline run has a strictly
positive numeric price and a strictly positive numeric qty. -/
theorem C1_positivity (P : Str → Option Int) (N : Str → Option Rat)
    (t out : Table) (h : pipeline P N t = some out) :
    ∀ r ∈ out.rows, ∃ p q : Rat,
      getCell out.cols r colPrice = some (.num p) ∧ 0 < p ∧
      getCell out.cols r colQty = some (.num q) ∧ 0 < q := by
  obtain ⟨t4, t5, h4, h5, rfl⟩ := pipeline_some P N t out h
  obtain ⟨hc5, hr5⟩ := remove_invalid_rows_some t4 t5 h5
  intro r hr
  have hrt5 : r ∈ t5.rows := ((dedupGo_mem [] t5.rows r).1 hr).1
  rw [hr5] at hrt5
  have hvalid := (List.mem_filter.1 hrt5).2
  have hsome : rowValid t4.cols r = some true := by
    cases hv : rowValid t4.cols r with
    | none =>
      rw [hv] at hvalid
      cases hvalid
    | some b =>
      rw [hv] at hvalid
      cases b with
      | false => cases hvalid
      | true => rfl
  rw [show (drop_duplicates t5).cols = t5.cols from rfl, hc5]
  exact rowValid_true _ _ hsome

/-- Witness for C1 on the sample pipeline run and its surviving row. -/
theorem C1_positivity_w :
    ∃ p q : Rat,
      getCell exPipelineOut.cols exRow0 colPrice = some (.num p) ∧ 0 < p ∧
      getCell exPipelineOut.cols exRow0 colQty = some (.num q) ∧ 0 < q :=
  C1_positivity exDateParser exNumParser exTable exPipelineOut (by decide)
    exRow0 (by decide)

/-- C4: the Missing-Value Handler fails (propagates the error) whenever
the price or qty column is absent; with both present it converts each
price and qty value to numeric, turns every unparseable value into the
missing marker, and removes exactly the rows in which price or qty is the
marker. -/
theorem C4_missing_value_handler (N : Str → Option Rat) (t : Table) :
    ((colPrice ∉ t.cols ∨ colQty ∉ t.cols) →
      handle_missing_values N t = none) ∧
    (∀ s, N s = none → to_numeric N (.str s) = Value.na) ∧
    (∀ s q, N s = some q → to_numeric N (.str s) = .num q) ∧
    (to_numeric N Value.na = Value.na) ∧
    (colPrice ∈ t.cols → colQty ∈ t.cols → ∃ t',
      handle_missing_values N t = some t' ∧ t'.cols = t.cols ∧
      t'.rows = (t.rows.map (hmvRowTransform N t.cols)).filter
        (fun r => notNaCell t.cols colPrice r && notNaCell t.cols colQty r) ∧
      ∀ r ∈ t'.rows, getCell t.cols r colPrice ≠ some Value.na ∧
        getCell t.cols r colQty ≠ some Value.na) := by
  refine ⟨?_, ?_, ?_, rfl, ?_⟩
  · intro hmiss
    unfold handle_missing_values coerce_and_drop
    rw [clean_prodname_col_cols]
    rcases hmiss with hm | hm
    · rw [if_neg hm]
    · by_cases hp : colPrice ∈ t.cols
      · rw [if_pos hp, if_neg hm]
      · rw [if_neg hp]
  · intro s hs
    simp [to_numeric, hs]
  · intro s q hs
    simp [to_numeric, hs]
  · intro hp hq
    have hsome : ∃ t', handle_missing_values N t = some t' := by
      unfold handle_missing_values coerce_and_drop
      rw [clean_prodname_col_cols, if_pos hp, if_pos hq]
      exact ⟨_, rfl⟩
    obtain ⟨t', ht'⟩ := hsome
    have hrows := handle_missing_values_rows N t t' ht'
    refine ⟨t', ht', handle_missing_values_cols N t t' ht', hrows, ?_⟩
    intro r hr
    rw [hrows] at hr
    have hf := (List.mem_filter.1 hr).2
    rw [Bool.and_eq_true] at hf
    exact ⟨notNaCell_true _ _ _ hf.1, notNaCell_true _ _ _ hf.2⟩

/-- Witness for C4: the handler fails on a table without the required
columns. -/
theorem C4_missing_value_handler_w :
    handle_missing_values exNumParser exEmpty = none :=
  (C4_missing_value_handler exNumParser exEmpty).1 (Or.inl (by decide))

/-- C7: on a table with a prodname column, every surviving row's prodname
cell is the text form of an input cell, stripped, whitespace-collapsed
and title-cased; title-casing works word by word, uppercasing the first
letter and lowercasing the rest of an alphabetic word. -/
theorem C7_prodname_titlecase (N : Str → Option Rat) (t t' : Table)
    (h : handle_missing_values N t = some t') (hp : colProdname ∈ t.cols) :
    (∀ r ∈ t'.rows, ∃ r0 ∈ t.rows,
      getCell t.cols r colProdname =
        (getCell t.cols r0 colProdname).map prodnameMapValue) ∧
    (∀ v, prodnameMapValue v = .str (title (collapseWs (stripWs (pyStr v))))) ∧
    (∀ w1 w2 : Str, title (w1 ++ ' ' :: w2) = title w1 ++ ' ' :: title w2) ∧
    (∀ c : Char, ∀ cs : Str, c.isAlpha = true → (∀ x ∈ cs, x.isAlpha = true) →
      title (c :: cs) = c.toUpper :: lowerStr cs) := by
  refine ⟨?_, fun v => rfl, ?_, ?_⟩
  · intro r hr
    rw [handle_missing_values_rows N t t' h] at hr
    obtain ⟨r0, hr0, rfl, _⟩ := mem_filter_map_prov hr
    exact ⟨r0, hr0, hmvRowTransform_prodname N t.cols r0 hp⟩
  · intro w1 w2
    exact titleGo_append_space false w1 w2
  · intro c cs hc hcs
    unfold title
    rw [titleGo_cons, if_pos hc, titleGo_true_alpha cs hcs]
    simp

/-- Witness for C7: the surviving row of the sample prodname table. -/
theorem C7_prodname_titlecase_w :
    ∃ r0 ∈ exProdTable.rows,
      getCell exProdTable.cols exProdOutRow colProdname =
        (getCell exProdTable.cols r0 colProdname).map prodnameMapValue :=
  (C7_prodname_titlecase exNumParser exProdTable exProdOut (by decide)
    (by decide)).1 exProdOutRow (by decide)

/-- C10: on a table whose price and qty cells are numeric or the missing
marker, the Row Validator succeeds and also removes every row whose price
or qty is the marker (the marker passes neither positivity test), so its
output has no missing price or qty values. -/
theorem C10_row_validator_drops_na (t : Table)
    (hp : colPrice ∈ t.cols) (hq : colQty ∈ t.cols)
    (hnum : ∀ r ∈ t.rows, numOrNa t.cols colPrice r = true ∧
      numOrNa t.cols colQty r = true) :
    ∃ t', remove_invalid_rows t = some t' ∧
      (∀ r ∈ t.rows,
        (getCell t.cols r colPrice = some Value.na ∨
         getCell t.cols r colQty = some Value.na) → r ∉ t'.rows) ∧
      (∀ r ∈ t'.rows, getCell t.cols r colPrice ≠ some Value.na ∧
        getCell t.cols r colQty ≠ some Value.na) := by
  have hall : t.rows.all (fun r => (rowValid t.cols r).isSome) = true := by
    rw [List.all_eq_true]
    intro r hr
    exact rowValid_isSome_of_numOrNa t.cols r (hnum r hr).1 (hnum r hr).2
  have hsome : remove_invalid_rows t = some
      { t with rows := t.rows.filter (fun r => (rowValid t.cols r).getD false) } := by
    unfold remove_invalid_rows
    rw [if_pos hp, if_pos hq, if_pos hall]
  refine ⟨_, hsome, ?_, ?_⟩
  · intro r hr hna hmem
    have hvt := (List.mem_filter.1 hmem).2
    rw [rowValid_false_of_na t.cols r (hnum r hr).1 (hnum r hr).2 hna] at hvt
    simp at hvt
  · intro r hr
    have hmemf := List.mem_filter.1 hr
    have hsome2 : rowValid t.cols r = some true := by
      cases hv : rowValid t.cols r with
      | none =>
        have := hmemf.2
        rw [hv] at this
        cases this
      | some b =>
        have := hmemf.2
        rw [hv] at this
        cases b with
        | false => cases this
        | true => rfl
    obtain ⟨p, q, hpc, _, hqc, _⟩ := rowValid_true t.cols r hsome2
    rw [hpc, hqc]
    exact ⟨by simp, by simp⟩

/-- Witness for C10 on the sample numeric table with one missing qty. -/
theorem C10_row_validator_drops_na_w :
    ∃ t', remove_invalid_rows exMixTable = some t' ∧
      (∀ r ∈ exMixTable.rows,
        (getCell exMixTable.cols r colPrice = some Value.na ∨
         getCell exMixTable.cols r colQty = some Value.na) → r ∉ t'.rows) ∧
      (∀ r ∈ t'.rows,
        getCell exMixTable.cols r colPrice ≠ some Value.na ∧
        getCell exMixTable.cols r colQty ≠ some Value.na) :=
  C10_row_validator_drops_na exMixTable (by decide) (by decide) (by decide)

/-- C3: the Date Normalizer replaces each unparseable or missing
date_sold value with the missing marker and removes exactly the rows
whose date_sold became the marker, preserving relative order of the
survivors; consequently every row of a successful pipeline run on a
rectangular table with a date_sold column has a parsed date_sold. -/
theorem C3_date_normalizer (P : Str → Option Int) (t : Table)
    (hd : colDateSold ∈ t.cols) (N : Str → Option Rat) (u out : Table)
    (hu : pipeline P N u = some out)
    (hud : colDateSold ∈ (clean_column_names u).cols) (hrect : rect u) :
    (∀ s, P s = none → to_datetime P (.str s) = Value.na) ∧
    (to_datetime P Value.na = Value.na) ∧
    (∀ v, to_datetime P v = Value.na ∨ ∃ d, to_datetime P v = .date d) ∧
    (clean_dates P t).cols = t.cols ∧
    (clean_dates P t).rows =
      (t.rows.map (mapColRow t.cols colDateSold (to_datetime P))).filter
        (fun r => notNaCell t.cols colDateSold r) ∧
    (clean_dates P t).rows.Sublist
      (t.rows.map (mapColRow t.cols colDateSold (to_datetime P))) ∧
    (∀ r ∈ out.rows, ∃ d, getCell out.cols r colDateSold = some (.date d)) := by
  refine ⟨?_, rfl, to_datetime_total P, clean_dates_cols P t,
    clean_dates_rows P t hd, ?_, pipeline_parsed_dates P N u out hu hud hrect⟩
  · intro s hs
    simp [to_datetime, hs]
  · rw [clean_dates_rows P t hd]
    exact List.filter_sublist _

/-- Witness for C3 on the sample pipeline run: the surviving row has a
parsed date. -/
theorem C3_date_normalizer_w :
    ∃ d, getCell exPipelineOut.cols exRow0 colDateSold = some (.date d) :=
  (C3_date_normalizer exDateParser exPipelineOut (by decide) exNumParser
    exTable exPipelineOut (by decide) (by decide)
    (by unfold rect; decide)).2.2.2.2.2.2 exRow0 (by decide)

end DataCleaning
